import Mathlib

/-!
Verification of the `bevy_replicate` snapshot-replication core: the frame
codec (full and delta encoding, `src/bevy_replicate/src/network_frame.rs`),
the sequence ring buffer (`src/bevy_replicate/src/sequence_buffer.rs`), the
network-entity identity registry (`src/bevy_replicate/src/network_entity.rs`)
and the receiver playback clock (`src/bevy_replicate/src/client.rs`),
shallowly embedded in Lean.

Bitstreams are modelled as `List Bool` in write order.  The repository
serializes through the external `bit_serializer` crate (not part of this
repository), so the primitive writers and readers are modelled from the
spec's wire-format section: fixed-width writes, single bits, and a standard
byte-oriented varint of 7 payload bits plus one continuation bit per byte.
Readers consume a prefix of the stream and return the remaining suffix.
-/

namespace BevyReplicate

/-- A bitstream: the sequence of bits in write order. -/
abbrev Bits := List Bool

/-- Modelled from the spec: the external bit serializer's fixed-width write
(`write_bits(value, w)`), missing from this repository.  The low `w` bits of
the value, least-significant first. -/
def natToBits (v : Nat) : Nat → Bits
  | 0 => []
  | w + 1 => (v % 2 == 1) :: natToBits (v / 2) w

/-- Modelled from the spec: the external bit serializer's fixed-width read
(`read_bits(w)`), missing from this repository.  Inverse of `natToBits`. -/
def readBits : Nat → Bits → Option (Nat × Bits)
  | 0, s => some (0, s)
  | _ + 1, [] => none
  | w + 1, b :: s =>
    match readBits w s with
    | none => none
    | some (v, rest) => some ((if b then 1 else 0) + 2 * v, rest)

/-- Modelled from the spec: the external bit serializer's `write_bool`. -/
def writeBool (b : Bool) : Bits := [b]

/-- Modelled from the spec: the external bit serializer's `read_bool`. -/
def readBool : Bits → Option (Bool × Bits)
  | [] => none
  | b :: s => some (b, s)

/-- Modelled from the spec: the external bit serializer's byte-oriented
varint writer (`write_varint_u64` / `write_varint_u16`), missing from this
repository: each byte carries one continuation bit followed by 7 payload
bits, least-significant group first. -/
def writeVarint (v : Nat) : Bits :=
  if v < 128 then false :: natToBits v 7
  else true :: (natToBits (v % 128) 7 ++ writeVarint (v / 128))
decreasing_by exact Nat.div_lt_self (by omega) (by omega)

/-- Fuelled worker for the varint reader. -/
def readVarintAux : Nat → Bits → Option (Nat × Bits)
  | 0, _ => none
  | fuel + 1, s =>
    match readBool s with
    | none => none
    | some (cont, s1) =>
      match readBits 7 s1 with
      | none => none
      | some (payload, s2) =>
        if cont then
          match readVarintAux fuel s2 with
          | none => none
          | some (hi, s3) => some (payload + 128 * hi, s3)
        else some (payload, s2)

/-- Modelled from the spec: the external bit serializer's varint reader.
Each continuation step consumes 8 bits, so `length + 1` fuel always
suffices. -/
def readVarint (s : Bits) : Option (Nat × Bits) :=
  readVarintAux (s.length + 1) s

/-! ## Frame codec (`src/bevy_replicate/src/network_frame.rs`) -/

/-- `ID_BITS` from `network_entity.rs`. -/
def ID_BITS : Nat := 12

/-- `MAX_ID = (1 << ID_BITS) - 1` from `network_entity.rs`. -/
def MAX_ID : Nat := 2 ^ ID_BITS - 1

/-- `MAX_LENGTH = 1 << ID_BITS` from `network_entity.rs`. -/
def MAX_LENGTH : Nat := 2 ^ ID_BITS

/-- The four per-entity change classifications of the delta codec
(`ComponentChange` in `network_frame.rs`, discriminants 0..3). -/
inductive ComponentChange
  | FullChange
  | NoComponent
  | NoChange
  | DeltaChange
deriving DecidableEq

/-- The wire discriminant of a change code (`change as u32`). -/
def ComponentChange.code : ComponentChange → Nat
  | .FullChange => 0
  | .NoComponent => 1
  | .NoChange => 2
  | .DeltaChange => 3

/-- `TryFrom<u8> for ComponentChange`. -/
def componentChangeOfCode : Nat → Option ComponentChange
  | 0 => some .FullChange
  | 1 => some .NoComponent
  | 2 => some .NoChange
  | 3 => some .DeltaChange
  | _ => none

/-- A per-field codec: the `NetworkedComponent` trait obligations of one
registered component type.  `write_full`/`write_delta` are total (encoding
never fails in the source except through the byte sink); reads are partial. -/
structure Codec (C : Type) where
  write_full : C → Bits
  read_full : Bits → Option (C × Bits)
  can_delta : C → C → Bool
  write_delta : C → C → Bits
  read_delta : C → Bits → Option (C × Bits)

/-- The codec's `read_full` inverts `write_full`, consuming exactly the
encoding (hypothesis of the round-trip claims). -/
def ReadFullInverts {C : Type} (K : Codec C) : Prop :=
  ∀ (c : C) (rest : Bits), K.read_full (K.write_full c ++ rest) = some (c, rest)

/-- The codec's `read_delta` inverts `write_delta` on delta-eligible pairs,
consuming exactly the encoding (hypothesis of the delta round-trip claim). -/
def ReadDeltaInverts {C : Type} (K : Codec C) : Prop :=
  ∀ (old c : C) (rest : Bits), K.can_delta old c = true →
    K.read_delta old (K.write_delta old c ++ rest) = some (c, rest)

/-- The parsed frame header (`FrameHeader` in `network_frame.rs`); entity
identifiers are the raw 12-bit wire values. -/
structure FrameHeader where
  tick : Nat
  delta_tick : Option Nat
  entities : List Nat
deriving DecidableEq

/-- A network frame as generated by the `network_frame!` macro: a tick, the
entity list, and one `Option`-valued component array per registered field
type.  Field arrays are homogeneous in `C` here; the registered types are
distinguished by their codecs, one per array. -/
structure Frame (C : Type) where
  tick : Nat
  entities : List Nat
  fields : List (List (Option C))
deriving DecidableEq

/-- `write_frame_header` from `network_frame.rs`: the delta flag, the
optional reference tick, the tick, the entity count (`len as u16`), then
each entity id in 12 bits. -/
def write_frame_header (tick : Nat) (delta_tick : Option Nat) (entities : List Nat) : Bits :=
  writeBool delta_tick.isSome ++
    (match delta_tick with
     | some dt => writeVarint dt
     | none => []) ++
    writeVarint tick ++
    writeVarint (entities.length % 2 ^ 16) ++
    (entities.map (fun id => natToBits id ID_BITS)).flatten

/-- The entity-id reading loop of `read_frame_header`. -/
def readIds : Nat → Bits → Option (List Nat × Bits)
  | 0, s => some ([], s)
  | n + 1, s =>
    match readBits ID_BITS s with
    | none => none
    | some (id, s1) =>
      match readIds n s1 with
      | none => none
      | some (ids, s2) => some (id :: ids, s2)

/-- `read_frame_header` from `network_frame.rs`; rejects an entity count
above `MAX_LENGTH`. -/
def read_frame_header (s : Bits) : Option (FrameHeader × Bits) :=
  match readBool s with
  | none => none
  | some (is_delta, s1) =>
    match (if is_delta then (readVarint s1).map (fun p => (some p.1, p.2)) else some (none, s1)) with
    | none => none
    | some (delta_tick, s2) =>
      match readVarint s2 with
      | none => none
      | some (tick, s3) =>
        match readVarint s3 with
        | none => none
        | some (len, s4) =>
          if MAX_LENGTH < len then none
          else
            match readIds len s4 with
            | none => none
            | some (entities, s5) => some (⟨tick, delta_tick, entities⟩, s5)

/-- `write_full_component` from `network_frame.rs`: one presence bit per
entity, then the full encodings of the present components in order. -/
def write_full_component {C : Type} (K : Codec C) (components : List (Option C)) : Bits :=
  components.map Option.isSome ++ ((components.filterMap id).map K.write_full).flatten

/-- The presence-flag reading loop of `read_full_component`. -/
def readFlags : Nat → Bits → Option (List Bool × Bits)
  | 0, s => some ([], s)
  | n + 1, s =>
    match readBool s with
    | none => none
    | some (b, s1) =>
      match readFlags n s1 with
      | none => none
      | some (bs, s2) => some (b :: bs, s2)

/-- The component-reading loop of `read_full_component`: a full read for
each `true` presence flag, `none` otherwise. -/
def readByFlags {C : Type} (K : Codec C) : List Bool → Bits → Option (List (Option C) × Bits)
  | [], s => some ([], s)
  | false :: flags, s => (readByFlags K flags s).map (fun p => (none :: p.1, p.2))
  | true :: flags, s =>
    match K.read_full s with
    | none => none
    | some (c, s1) => (readByFlags K flags s1).map (fun p => (some c :: p.1, p.2))

/-- `read_full_component` from `network_frame.rs`. -/
def read_full_component {C : Type} (K : Codec C) (entities_len : Nat) (s : Bits) :
    Option (List (Option C) × Bits) :=
  match readFlags entities_len s with
  | none => none
  | some (flags, s1) => readByFlags K flags s1

/-- `generate_delta_mapping` from `network_frame.rs`: each entity of the
current frame maps to the position of its first occurrence in the reference
frame's entity list, when it occurs there. -/
def generate_delta_mapping (previous_entities current_entities : List Nat) : Nat → Option Nat :=
  fun id =>
    if current_entities.contains id then previous_entities.findIdx? (fun old => old == id)
    else none

/-- The reference value looked up during delta classification:
`delta_mapping.get(&entities[i]).and_then(|index| previous_components[*index].as_ref())`.
The mapped index is always in range when the mapping comes from the
reference frame itself; an out-of-range index is modelled as absence. -/
def prevValue {C : Type} (previous_components : List (Option C)) (m : Nat → Option Nat)
    (id : Nat) : Option C :=
  (m id).bind (fun idx => (previous_components[idx]?).join)

/-- The change classification of `write_delta_component`, in the source's
match-arm order: absent value, then missing reference, then value equality,
then delta eligibility, then full fallback. -/
def classifyChange {C : Type} [DecidableEq C] (K : Codec C)
    (previous current : Option C) : ComponentChange :=
  match previous, current with
  | _, none => .NoComponent
  | none, some _ => .FullChange
  | some p, some c =>
    if p = c then .NoChange
    else if K.can_delta p c then .DeltaChange
    else .FullChange

/-- The per-entity change codes emitted by `write_delta_component` (its
first loop), in entity-list order. -/
def deltaChanges {C : Type} [DecidableEq C] (K : Codec C) (entities : List Nat)
    (current_components previous_components : List (Option C)) (m : Nat → Option Nat) :
    List ComponentChange :=
  (entities.zip current_components).map
    (fun ec => classifyChange K (prevValue previous_components m ec.1) ec.2)

/-- The per-entity payload pieces emitted by `write_delta_component` (its
second loop): the full encoding on `FullChange`, the delta encoding on
`DeltaChange`, nothing otherwise. -/
def deltaPayloadPieces {C : Type} [DecidableEq C] (K : Codec C) (entities : List Nat)
    (current_components previous_components : List (Option C)) (m : Nat → Option Nat) :
    List Bits :=
  (entities.zip current_components).map
    (fun ec =>
      match classifyChange K (prevValue previous_components m ec.1) ec.2 with
      | .FullChange =>
        match ec.2 with
        | some c => K.write_full c
        | none => []
      | .DeltaChange =>
        match prevValue previous_components m ec.1, ec.2 with
        | some p, some c => K.write_delta p c
        | _, _ => []
      | _ => [])

/-- The concatenated payload bits of `write_delta_component`. -/
def deltaPayload {C : Type} [DecidableEq C] (K : Codec C) (entities : List Nat)
    (current_components previous_components : List (Option C)) (m : Nat → Option Nat) : Bits :=
  (deltaPayloadPieces K entities current_components previous_components m).flatten

/-- `write_delta_component` from `network_frame.rs`: all 2-bit change codes
first, then the payloads in the same entity order. -/
def write_delta_component {C : Type} [DecidableEq C] (K : Codec C) (entities : List Nat)
    (current_components previous_components : List (Option C)) (m : Nat → Option Nat) : Bits :=
  ((deltaChanges K entities current_components previous_components m).map
    (fun ch => natToBits ch.code 2)).flatten ++
  deltaPayload K entities current_components previous_components m

/-- The change-code reading loop of `read_delta_component`.  Reading 2 bits
always yields a valid discriminant, mirroring the source's `unwrap`. -/
def readChanges : Nat → Bits → Option (List ComponentChange × Bits)
  | 0, s => some ([], s)
  | n + 1, s =>
    match readBits 2 s with
    | none => none
    | some (c, s1) =>
      match componentChangeOfCode c with
      | none => none
      | some ch =>
        match readChanges n s1 with
        | none => none
        | some (chs, s2) => some (ch :: chs, s2)

/-- The reconstruction loop of `read_delta_component`, processing each
entity together with its decoded change code.  `NoChange` and `DeltaChange`
fail when the entity is missing from the delta mapping; `DeltaChange`
additionally fails when the mapped reference slot holds no value.  An
out-of-range mapped index (a panic in the source, unreachable from frame
decoding) is modelled as failure. -/
def readDeltaBody {C : Type} (K : Codec C) (previous_components : List (Option C))
    (m : Nat → Option Nat) : List (Nat × ComponentChange) → Bits → Option (List (Option C) × Bits)
  | [], s => some ([], s)
  | (e, ch) :: rest, s =>
    match ch with
    | .FullChange =>
      match K.read_full s with
      | none => none
      | some (c, s1) =>
        (readDeltaBody K previous_components m rest s1).map (fun p => (some c :: p.1, p.2))
    | .NoComponent =>
      (readDeltaBody K previous_components m rest s).map (fun p => (none :: p.1, p.2))
    | .NoChange =>
      match m e with
      | none => none
      | some idx =>
        match previous_components[idx]? with
        | none => none
        | some comp =>
          (readDeltaBody K previous_components m rest s).map (fun p => (comp :: p.1, p.2))
    | .DeltaChange =>
      match m e with
      | none => none
      | some idx =>
        match previous_components[idx]? with
        | none => none
        | some none => none
        | some (some prev) =>
          match K.read_delta prev s with
          | none => none
          | some (c, s1) =>
            (readDeltaBody K previous_components m rest s1).map (fun p => (some c :: p.1, p.2))

/-- `read_delta_component` from `network_frame.rs`. -/
def read_delta_component {C : Type} (K : Codec C) (entities : List Nat)
    (previous_components : List (Option C)) (m : Nat → Option Nat) (s : Bits) :
    Option (List (Option C) × Bits) :=
  match readChanges entities.length s with
  | none => none
  | some (changes, s1) => readDeltaBody K previous_components m (entities.zip changes) s1

/-- `write_full_frame` of the macro-generated `NetworkFrame`: the header
with no reference tick, then one full component section per registered
field type in declared order. -/
def write_full_frame {C : Type} (Ks : List (Codec C)) (F : Frame C) : Bits :=
  write_frame_header F.tick none F.entities ++
    ((Ks.zip F.fields).map (fun kf => write_full_component kf.1 kf.2)).flatten

/-- `write_delta_frame` of the macro-generated `NetworkFrame`: the header
carrying the reference tick, then one delta component section per
registered field type against the reference frame's matching array. -/
def write_delta_frame {C : Type} [DecidableEq C] (Ks : List (Codec C))
    (F delta_frame : Frame C) : Bits :=
  write_frame_header F.tick (some delta_frame.tick) F.entities ++
    (((Ks.zip (F.fields.zip delta_frame.fields)).map
      (fun x =>
        write_delta_component x.1 F.entities x.2.1 x.2.2
          (generate_delta_mapping delta_frame.entities F.entities))).flatten)

/-- The per-field full-read sequence of `read_frame` (non-delta branch). -/
def readFullComponents {C : Type} : List (Codec C) → Nat → Bits →
    Option (List (List (Option C)) × Bits)
  | [], _, s => some ([], s)
  | K :: Ks, n, s =>
    match read_full_component K n s with
    | none => none
    | some (comps, s1) =>
      (readFullComponents Ks n s1).map (fun p => (comps :: p.1, p.2))

/-- The per-field delta-read sequence of `read_frame` (delta branch), each
codec paired with the reference frame's matching component array. -/
def readDeltaComponents {C : Type} : List (Codec C × List (Option C)) → List Nat →
    (Nat → Option Nat) → Bits → Option (List (List (Option C)) × Bits)
  | [], _, _, s => some ([], s)
  | (K, prev) :: rest, entities, m, s =>
    match read_delta_component K entities prev m s with
    | none => none
    | some (comps, s1) =>
      (readDeltaComponents rest entities m s1).map (fun p => (comps :: p.1, p.2))

/-- `read_frame` of the macro-generated `NetworkFrame`.  `lookup` is the
receiver's history buffer access (`frame_buffer.buffer.get`); a delta frame
whose reference tick is not in the buffer is rejected. -/
def read_frame {C : Type} (Ks : List (Codec C)) (lookup : Nat → Option (Frame C)) (s : Bits) :
    Option (Frame C × Bits) :=
  match read_frame_header s with
  | none => none
  | some (header, s1) =>
    match header.delta_tick with
    | some delta_tick =>
      match lookup delta_tick with
      | none => none
      | some delta_frame =>
        match
          readDeltaComponents (Ks.zip delta_frame.fields) header.entities
            (generate_delta_mapping delta_frame.entities header.entities) s1 with
        | none => none
        | some (fields, s2) => some (⟨header.tick, header.entities, fields⟩, s2)
    | none =>
      match readFullComponents Ks header.entities.length s1 with
      | none => none
      | some (fields, s2) => some (⟨header.tick, header.entities, fields⟩, s2)

/-! ## Sequence ring buffer (`src/bevy_replicate/src/sequence_buffer.rs`) -/

/-- The fixed-capacity sequence-indexed ring buffer.  The two parallel
boxed slices of the source keep their common length, and the constructor's
`capacity > 0` assertion is carried as an invariant. -/
structure SequenceBuffer (T : Type) where
  sequences : List (Option Nat)
  data : List (Option T)
  hlen : sequences.length = data.length
  hpos : 0 < data.length

namespace SequenceBuffer

/-- `SequenceBuffer::with_capacity`; the source asserts `capacity > 0`. -/
def with_capacity (T : Type) (capacity : Nat) (h : 0 < capacity) : SequenceBuffer T :=
  ⟨List.replicate capacity none, List.replicate capacity none, by simp, by simpa using h⟩

/-- `SequenceBuffer::size`. -/
def size {T : Type} (b : SequenceBuffer T) : Nat := b.sequences.length

/-- `SequenceBuffer::index_of`: `sequence % data.len()`. -/
def index_of {T : Type} (b : SequenceBuffer T) (sequence : Nat) : Nat :=
  sequence % b.data.length

/-- `SequenceBuffer::contains`. -/
def contains {T : Type} (b : SequenceBuffer T) (sequence : Nat) : Bool :=
  b.sequences.getD (b.index_of sequence) none == some sequence

/-- `SequenceBuffer::get`: the slot's payload, only when the slot's stored
tag equals the requested sequence exactly. -/
def get {T : Type} (b : SequenceBuffer T) (sequence : Nat) : Option T :=
  if b.sequences.getD (b.index_of sequence) none = some sequence then
    b.data.getD (b.index_of sequence) none
  else none

/-- `SequenceBuffer::insert`: unconditionally overwrite the slot
`sequence % capacity` with the new tag and payload.  (The source also
returns a reference to the stored payload.) -/
def insert {T : Type} (b : SequenceBuffer T) (sequence : Nat) (v : T) : SequenceBuffer T :=
  ⟨b.sequences.set (b.index_of sequence) (some sequence),
   b.data.set (b.index_of sequence) (some v),
   by simp [b.hlen], by simpa using b.hpos⟩

/-- `SequenceBuffer::remove`: clear the slot `sequence % capacity`.  (The
source also returns the evicted payload, which no caller in the repository
consumes.) -/
def remove {T : Type} (b : SequenceBuffer T) (sequence : Nat) : SequenceBuffer T :=
  ⟨b.sequences.set (b.index_of sequence) none,
   b.data.set (b.index_of sequence) none,
   by simp [b.hlen], by simpa using b.hpos⟩

/-- The inclusive index range `start..=stop` of the source's wrap branch;
empty when `stop < start`, exactly as in Rust. -/
def rangeIncl (start stop : Nat) : List Nat :=
  List.range' start (stop + 1 - start)

/-- `SequenceBuffer::remove_range(range)`: when the end slot index is below
the start slot index it loops `remove` over the inclusive slot-index range
(which is empty in that case); otherwise it clears every slot of both
slices. -/
def remove_range {T : Type} (b : SequenceBuffer T) (start stop : Nat) : SequenceBuffer T :=
  let start_idx := b.index_of start
  let end_idx := b.index_of stop
  if end_idx < start_idx then
    (rangeIncl start_idx end_idx).foldl (fun acc i => acc.remove i) b
  else
    ⟨List.replicate b.sequences.length none, List.replicate b.data.length none,
     by simp [b.hlen], by simpa using b.hpos⟩

/-- The iterator's start tag: the minimum live tag, or 0 when the buffer is
empty (`sequences.iter().filter_map(|&s| s).min().unwrap_or(0)`). -/
def minTag {T : Type} (b : SequenceBuffer T) : Nat :=
  ((b.sequences.filterMap id).min?).getD 0

/-- The collected items of `Iter`: starting from `current`, scan at most
`fuel` consecutive sequence numbers (`fuel = size` from `iter`), yielding
`get` at each contained sequence.  A contained sequence whose payload slot
is empty ends the iteration, exactly as the source iterator returns
`None` there. -/
def iterCollect {T : Type} (b : SequenceBuffer T) : Nat → Nat → List T
  | 0, _ => []
  | fuel + 1, current =>
    if b.contains current then
      match b.get current with
      | some v => v :: iterCollect b fuel (current + 1)
      | none => []
    else iterCollect b fuel (current + 1)

/-- `SequenceBuffer::iter`, fully collected: the window scanned is
`[minTag, minTag + size)`. -/
def iterList {T : Type} (b : SequenceBuffer T) : List T :=
  iterCollect b b.size (minTag b)

/-- The live tags the iterator visits, in visit order: the contained
sequence numbers of the window `[minTag, minTag + size)`. -/
def liveWindowTags {T : Type} (b : SequenceBuffer T) : List Nat :=
  (List.range b.size).filterMap
    (fun k => if b.contains (minTag b + k) then some (minTag b + k) else none)

/-- Slot well-formedness: every slot holding a tag also holds a payload.
`insert` and `remove` always write both slices, so every buffer reachable
through the public operations satisfies this. -/
abbrev WellFormed {T : Type} (b : SequenceBuffer T) : Prop :=
  ∀ i, i < b.data.length → (b.sequences.getD i none).isSome = true →
    (b.data.getD i none).isSome = true

end SequenceBuffer

/-! ## Entity identity registry (`src/bevy_replicate/src/network_entity.rs`) -/

/-- The identity registry: the used-bitmap over the 12-bit id domain and
the round-robin cursor.  (The source also keeps an `Entity → NetworkID`
map used only by the release path.) -/
structure NetworkEntities where
  used : List Bool
  current_id : Nat

/-- `NetworkEntities::default()`: all ids free, cursor at 0. -/
def NetworkEntities.default : NetworkEntities :=
  ⟨List.replicate MAX_LENGTH false, 0⟩

/-- Outcome of one `NetworkEntities::generate` call.  `panicked` is an
out-of-bounds access of the used-bitmap (a Rust panic); `spin` is fuel
exhaustion of the model and is unreachable with the fuel used by
`generate`. -/
inductive GenResult
  | ok (id : Nat) (st : NetworkEntities)
  | exhausted (st : NetworkEntities)
  | panicked
  | spin

/-- The `loop` body of `NetworkEntities::generate`, with the source's
`count` made explicit and structural fuel on top: check the bitmap at the
cursor (out of bounds is a panic), allocate on a free slot, otherwise wrap
the cursor when it exceeds `MAX_ID`, bump `count`, and give up with `None`
once `count` reaches `MAX_LENGTH`. -/
def generateAux (used : List Bool) : Nat → Nat → Nat → GenResult
  | _, _, 0 => .spin
  | current, count, fuel + 1 =>
    match used[current]? with
    | none => .panicked
    | some false => .ok current ⟨used.set current true, current + 1⟩
    | some true =>
      let current1 := if MAX_ID < current then 0 else current
      let count1 := count + 1
      if MAX_LENGTH ≤ count1 then .exhausted ⟨used, current1⟩
      else generateAux used current1 count1 fuel

/-- `NetworkEntities::generate`.  The loop increments `count` every failed
probe and stops once it reaches `MAX_LENGTH`, so `MAX_LENGTH + 1` fuel can
never run out. -/
def NetworkEntities.generate (st : NetworkEntities) : GenResult :=
  generateAux st.used st.current_id 0 (MAX_LENGTH + 1)

/-- The registry state after `k` successful fresh allocations: the first
`k` ids used, cursor at `k`. -/
def registryAfter (k : Nat) : NetworkEntities :=
  ⟨List.replicate k true ++ List.replicate (MAX_LENGTH - k) false, k⟩

/-! ## Receiver playback clock (`src/bevy_replicate/src/client.rs`) -/

/-- `SnapshotInterpolationBuffer<T>`: the receiver's playback-clock state.
Wall-clock durations (`std::time::Duration`, `f64` seconds) are modelled
as rationals; `tickOf` stands for `T::tick()`. -/
structure PlaybackState (T : Type) where
  start_time : ℚ
  playout_delay : ℚ
  stopped : Bool
  start_tick : Nat
  interpolating : Bool
  tick_rate : ℚ
  interpolation_start_tick : Nat
  interpolation_end_tick : Nat
  interpolation_start_time : ℚ
  interpolation_end_time : ℚ
  tick_duration : ℚ
  buffer : SequenceBuffer T

namespace PlaybackState

/-- `SnapshotInterpolationBuffer::new`. -/
def new (T : Type) (buffer_capacity : Nat) (hcap : 0 < buffer_capacity)
    (playout_delay : ℚ) (send_rate : ℚ) : PlaybackState T :=
  { start_time := 0
    playout_delay := playout_delay
    stopped := true
    start_tick := 0
    interpolating := false
    tick_rate := send_rate
    interpolation_start_tick := 0
    interpolation_end_tick := 0
    interpolation_start_time := 0
    interpolation_end_time := 0
    tick_duration := 1 / send_rate
    buffer := SequenceBuffer.with_capacity T buffer_capacity hcap }

/-- `SnapshotInterpolationBuffer::add_snapshot`: the first snapshot ever
received anchors `start_tick`/`start_time` and leaves the stopped state;
the snapshot is always inserted into the ring buffer. -/
def add_snapshot {T : Type} (tickOf : T → Nat) (st : PlaybackState T)
    (current_time : ℚ) (snapshot : T) : PlaybackState T :=
  let tick := tickOf snapshot
  let st1 :=
    if st.stopped then
      { st with start_tick := tick, start_time := current_time, stopped := false }
    else st
  { st1 with buffer := st1.buffer.insert tick snapshot }

/-- The forward bracket search of `update`: the first `i` in `1..=n` whose
snapshot is buffered, together with that snapshot. -/
def findBracket {T : Type} (buffer : SequenceBuffer T) (start_tick n : Nat) :
    Option (Nat × T) :=
  (List.range' 1 n).findSome? (fun i => (buffer.get (start_tick + i)).map (fun s => (i, s)))

/-- `SnapshotInterpolationBuffer::update`, as a state transformer.  Besides
the new state it returns the snapshot applied to the world this step (if
any) and the interpolation fraction written to `NetworkInterpolation` (if
reached).  `current_time.checked_sub(start_time + playout_delay)` returning
`None` is the early exit before the delay has elapsed. -/
def update {T : Type} (st : PlaybackState T) (current_time : ℚ) :
    PlaybackState T × Option T × Option ℚ :=
  if st.stopped then (st, none, none)
  else if current_time < st.start_time + st.playout_delay then (st, none, none)
  else
    let time := current_time - (st.start_time + st.playout_delay)
    let frames_since_start := time * st.tick_rate
    let interpolation_tick := ⌊frames_since_start⌋₊ + st.start_tick
    let st1 :=
      if st.interpolating then
        let n := ⌊st.playout_delay * st.tick_rate⌋₊
        if n < Nat.dist interpolation_tick st.interpolation_start_tick then
          { st with interpolating := false }
        else st
      else st
    let st2 :=
      if st1.interpolating then st1
      else
        match st1.buffer.get interpolation_tick with
        | some _ =>
          { st1 with
            interpolation_start_tick := interpolation_tick
            interpolation_end_tick := interpolation_tick
            interpolation_start_time := frames_since_start / st1.tick_rate
            interpolation_end_time := frames_since_start / st1.tick_rate
            interpolating := true }
        | none => st1
    if st2.interpolating then
      let time1 := if time < st2.interpolation_start_time then st2.interpolation_start_time else time
      let stepped :=
        if st2.interpolation_end_time ≤ time1 then
          let n := ⌊st2.playout_delay * st2.tick_rate⌋₊
          let st3 :=
            { st2 with
              interpolation_start_tick := st2.interpolation_end_tick
              interpolation_start_time := st2.interpolation_end_time }
          match findBracket st3.buffer st3.interpolation_start_tick n with
          | some (i, snapshot) =>
            ({ st3 with
               interpolation_end_tick := st3.interpolation_start_tick + i
               interpolation_end_time := st3.interpolation_start_time + st3.tick_duration * i },
             some snapshot)
          | none => (st3, none)
        else (st2, none)
      let st4 := stepped.1
      if st4.interpolation_end_time ≤ time1 then (st4, stepped.2, none)
      else
        let fract := time1 - st4.interpolation_start_time
        let whole := st4.interpolation_end_time - st4.interpolation_start_time
        let t := min (max (fract / whole) 0) 1
        (st4, stepped.2, some t)
    else (st2, none, none)

end PlaybackState

/-! ## Concrete instances used by witnesses and counterexamples -/

/-- A one-bit test codec over `Bool`, delta-eligible on every pair, used to
instantiate the generic codec hypotheses concretely. -/
def boolCodec : Codec Bool where
  write_full c := [c]
  read_full := readBool
  can_delta _ _ := true
  write_delta _ c := [c]
  read_delta _ := readBool

/-- A history lookup holding exactly one frame, keyed by its tick. -/
def lookupOnly (R : Frame Bool) : Nat → Option (Frame Bool) :=
  fun t => if t = R.tick then some R else none

/-- A small concrete frame for the full round trip: one field, one present
and one absent component. -/
def fullFrameEx : Frame Bool := ⟨7, [1, 2], [[some true, none]]⟩

/-- The reference frame of the concrete delta round trip. -/
def deltaRefEx : Frame Bool := ⟨3, [0, 1, 2], [[some true, some false, some true]]⟩

/-- The current frame of the concrete delta round trip: entity 0 changes
value (delta-eligible), entity 1 keeps its value, entity 5 is new. -/
def deltaCurEx : Frame Bool := ⟨4, [0, 1, 5], [[some false, some false, some true]]⟩

/-- A capacity-2 buffer holding tags 0 and 5: both slots are live but tag 5
lies outside the iteration window `[0, 2)`. -/
def bufPairEx : SequenceBuffer Nat :=
  ((SequenceBuffer.with_capacity Nat 2 (by omega)).insert 0 10).insert 5 50

/-- A capacity-4 buffer holding tick 6 in slot 2. -/
def bufInsEx : SequenceBuffer Nat :=
  (SequenceBuffer.with_capacity Nat 4 (by omega)).insert 6 60

/-- A capacity-4 buffer holding sequences 1 and 3. -/
def bufRemEx : SequenceBuffer Nat :=
  ((SequenceBuffer.with_capacity Nat 4 (by omega)).insert 1 10).insert 3 30

/-- A fresh playback clock: capacity 4, 100 ms playout delay, 20 Hz tick
rate (the plugin defaults). -/
def playbackEx : PlaybackState Nat :=
  PlaybackState.new Nat 4 (by omega) (1 / 10) 20

/-- A running playback state (decode path) whose buffer already holds the
newer tick-6 frame in slot 2. -/
def playbackSixEx : PlaybackState Nat :=
  { playbackEx with stopped := false, buffer := bufInsEx }

/-- The delta mapping sending every entity to reference index 0. -/
def mapZero : Nat → Option Nat := fun _ => some 0

/-! ## Bit-level round trips -/

theorem readBits_natToBits (w : Nat) (v : Nat) (rest : Bits) :
    readBits w (natToBits v w ++ rest) = some (v % 2 ^ w, rest) := by
  induction w generalizing v with
  | zero => simp [natToBits, readBits, Nat.mod_one]
  | succ w ih =>
    have hsplit : v % 2 ^ (w + 1) = v % 2 + 2 * (v / 2 % 2 ^ w) := by
      rw [pow_succ, mul_comm, Nat.mod_mul]
    simp only [natToBits, List.cons_append, readBits, hsplit]
    rcases Nat.mod_two_eq_zero_or_one v with h | h <;> simp [h, ih]

theorem readBits_natToBits_lt (w : Nat) (v : Nat) (rest : Bits) (hv : v < 2 ^ w) :
    readBits w (natToBits v w ++ rest) = some (v, rest) := by
  rw [readBits_natToBits, Nat.mod_eq_of_lt hv]

theorem readBool_writeBool (b : Bool) (rest : Bits) :
    readBool (writeBool b ++ rest) = some (b, rest) := rfl

theorem readVarintAux_writeVarint (fuel : Nat) :
    ∀ (v : Nat) (rest : Bits), v < 128 ^ (fuel + 1) →
      readVarintAux (fuel + 1) (writeVarint v ++ rest) = some (v, rest) := by
  induction fuel with
  | zero =>
    intro v rest hv
    rw [pow_one] at hv
    rw [writeVarint]
    have h7 : v < 2 ^ 7 := hv
    simp [readVarintAux, readBool, hv, readBits_natToBits_lt 7 v rest h7]
  | succ fuel ih =>
    intro v rest hv
    rw [writeVarint]
    by_cases h : v < 128
    · have h7 : v < 2 ^ 7 := h
      simp [readVarintAux, readBool, h, readBits_natToBits_lt 7 v rest h7]
    · have hlt : v % 128 < 2 ^ 7 := Nat.mod_lt _ (by omega)
      have hdiv : v / 128 < 128 ^ (fuel + 1) := by
        rw [Nat.div_lt_iff_lt_mul (by omega)]
        calc v < 128 ^ (fuel + 1 + 1) := hv
        _ = 128 ^ (fuel + 1) * 128 := by ring
      simp only [h, if_false, List.cons_append, List.append_assoc]
      rw [readVarintAux]
      simp [readBool, readBits_natToBits_lt 7 (v % 128) _ hlt, ih _ rest hdiv, Nat.mod_add_div]

theorem length_writeVarint_ge (v : Nat) : v < 128 ^ (writeVarint v).length := by
  induction v using Nat.strong_induction_on with
  | _ v ih =>
    rw [writeVarint]
    by_cases h : v < 128
    · simp only [if_pos h]
      have : (false :: natToBits v 7).length = 8 := by simp [natToBits]
      rw [this]
      calc v < 128 := h
      _ = 128 ^ 1 := (pow_one 128).symm
      _ ≤ 128 ^ 8 := Nat.pow_le_pow_right (by omega) (by omega)
    · have hrec : v / 128 < 128 ^ (writeVarint (v / 128)).length :=
        ih (v / 128) (Nat.div_lt_self (by omega) (by omega))
      simp only [if_neg h, List.length_cons, List.length_append]
      have hv : v < 128 ^ ((writeVarint (v / 128)).length + 1) := by
        have h1 : v = 128 * (v / 128) + v % 128 := (Nat.div_add_mod v 128).symm ▸ by omega
        have h2 : v % 128 < 128 := Nat.mod_lt _ (by omega)
        calc v = 128 * (v / 128) + v % 128 := by omega
        _ < 128 * (v / 128) + 128 := by omega
        _ = 128 * (v / 128 + 1) := by ring
        _ ≤ 128 * 128 ^ (writeVarint (v / 128)).length := by
            have := hrec; exact Nat.mul_le_mul_left 128 (by omega)
        _ = 128 ^ ((writeVarint (v / 128)).length + 1) := by ring
      calc v < 128 ^ ((writeVarint (v / 128)).length + 1) := hv
      _ ≤ 128 ^ ((natToBits (v % 128) 7).length + (writeVarint (v / 128)).length + 1) := by
          apply Nat.pow_le_pow_right (by omega); omega

theorem readVarint_writeVarint (v : Nat) (rest : Bits) :
    readVarint (writeVarint v ++ rest) = some (v, rest) := by
  apply readVarintAux_writeVarint
  calc v < 128 ^ (writeVarint v).length := length_writeVarint_ge v
  _ ≤ 128 ^ ((writeVarint v ++ rest).length + 1) := by
      apply Nat.pow_le_pow_right (by omega)
      simp [List.length_append]; omega

/-! ## Header round trip -/

theorem readIds_flatten (ids : List Nat) (rest : Bits) (hid : ∀ id ∈ ids, id < 2 ^ ID_BITS) :
    readIds ids.length ((ids.map (fun id => natToBits id ID_BITS)).flatten ++ rest) =
      some (ids, rest) := by
  induction ids with
  | nil => simp [readIds]
  | cons id ids ih =>
    have hhd : id < 2 ^ ID_BITS := hid id (by simp)
    have htl : ∀ x ∈ ids, x < 2 ^ ID_BITS := fun x hx => hid x (by simp [hx])
    simp only [List.map_cons, List.flatten_cons, List.length_cons, List.append_assoc]
    rw [readIds, readBits_natToBits_lt ID_BITS id _ hhd]
    simp [ih htl]

theorem read_frame_header_roundtrip (tick : Nat) (delta_tick : Option Nat)
    (entities : List Nat) (rest : Bits)
    (hlen : entities.length ≤ MAX_LENGTH) (hid : ∀ id ∈ entities, id < MAX_LENGTH) :
    read_frame_header (write_frame_header tick delta_tick entities ++ rest) =
      some (⟨tick, delta_tick, entities⟩, rest) := by
  have hmod : entities.length % 65536 = entities.length :=
    Nat.mod_eq_of_lt (by have := hlen; simp [MAX_LENGTH, ID_BITS] at this; omega)
  have hnotbig : ¬ MAX_LENGTH < entities.length := by omega
  have hid2 : ∀ id ∈ entities, id < 2 ^ ID_BITS := by
    intro id h; simpa [MAX_LENGTH] using hid id h
  cases delta_tick with
  | none =>
    simp only [write_frame_header, writeBool, Option.isSome_none, List.nil_append,
      List.append_assoc, List.cons_append]
    rw [read_frame_header]
    simp [readBool, readVarint_writeVarint, hmod, hnotbig, readIds_flatten entities rest hid2]
  | some dt =>
    simp only [write_frame_header, writeBool, Option.isSome_some, List.append_assoc,
      List.cons_append]
    rw [read_frame_header]
    simp [readBool, readVarint_writeVarint, hmod, hnotbig, readIds_flatten entities rest hid2]

/-! ## Full-component round trip -/

theorem readFlags_append (flags : List Bool) (rest : Bits) :
    readFlags flags.length (flags ++ rest) = some (flags, rest) := by
  induction flags with
  | nil => simp [readFlags]
  | cons b bs ih =>
    simp only [List.length_cons, List.cons_append]
    rw [readFlags]
    simp [readBool, ih]

theorem readByFlags_roundtrip {C : Type} (K : Codec C) (hK : ReadFullInverts K)
    (comps : List (Option C)) (rest : Bits) :
    readByFlags K (comps.map Option.isSome)
      (((comps.filterMap id).map K.write_full).flatten ++ rest) = some (comps, rest) := by
  have hK1 : ∀ (c : C) (r : Bits), K.read_full (K.write_full c ++ r) = some (c, r) := hK
  induction comps with
  | nil => simp [readByFlags]
  | cons c cs ih =>
    cases c with
    | none =>
      simp only [List.map_cons, Option.isSome_none, List.filterMap_cons]
      rw [readByFlags]
      simp [ih]
    | some v =>
      simp only [List.map_cons, Option.isSome_some, List.filterMap_cons, id_eq,
        List.flatten_cons, List.append_assoc]
      rw [readByFlags]
      simp [hK1, ih]

theorem read_full_component_roundtrip {C : Type} (K : Codec C) (hK : ReadFullInverts K)
    (comps : List (Option C)) (rest : Bits) :
    read_full_component K comps.length (write_full_component K comps ++ rest) =
      some (comps, rest) := by
  rw [read_full_component, write_full_component]
  have hlen : comps.length = (comps.map Option.isSome).length := by simp
  rw [List.append_assoc, hlen, readFlags_append]
  exact readByFlags_roundtrip K hK comps rest

theorem readFullComponents_roundtrip {C : Type} :
    ∀ (Ks : List (Codec C)) (fields : List (List (Option C))) (n : Nat) (rest : Bits),
      (∀ K ∈ Ks, ReadFullInverts K) → fields.length = Ks.length →
      (∀ f ∈ fields, f.length = n) →
      readFullComponents Ks n
        (((Ks.zip fields).map (fun kf => write_full_component kf.1 kf.2)).flatten ++ rest) =
        some (fields, rest) := by
  intro Ks
  induction Ks with
  | nil =>
    intro fields n rest _ hlen _
    have : fields = [] := List.length_eq_zero.mp (by simpa using hlen)
    subst this
    simp [readFullComponents]
  | cons K Ks ih =>
    intro fields n rest hK hlen hfl
    cases fields with
    | nil => simp at hlen
    | cons f fs =>
      simp only [List.zip_cons_cons, List.map_cons, List.flatten_cons, List.append_assoc]
      rw [readFullComponents]
      have hf : f.length = n := hfl f (by simp)
      rw [← hf, read_full_component_roundtrip K (hK K (by simp)) f _, hf]
      simp [ih fs n rest (fun K2 h2 => hK K2 (by simp [h2])) (by simpa using hlen)
        (fun g hg => hfl g (by simp [hg]))]

/-! ## Delta-component round trip -/

theorem readChanges_of_codes (chs : List ComponentChange) (rest : Bits) :
    readChanges chs.length ((chs.map (fun ch => natToBits ch.code 2)).flatten ++ rest) =
      some (chs, rest) := by
  induction chs with
  | nil => simp [readChanges]
  | cons ch chs ih =>
    have hcode : ch.code < 2 ^ 2 := by cases ch <;> simp [ComponentChange.code]
    have hof : componentChangeOfCode ch.code = some ch := by
      cases ch <;> rfl
    simp only [List.map_cons, List.flatten_cons, List.length_cons, List.append_assoc]
    rw [readChanges, readBits_natToBits_lt 2 ch.code _ hcode]
    simp [hof, ih]

theorem prevValue_eq_some {C : Type} (prev : List (Option C)) (m : Nat → Option Nat)
    (e : Nat) (p : C) (h : prevValue prev m e = some p) :
    ∃ idx, m e = some idx ∧ prev[idx]? = some (some p) := by
  rcases hm : m e with _ | idx
  · rw [prevValue, hm] at h; simp at h
  · rw [prevValue, hm] at h
    simp only [Option.some_bind] at h
    exact ⟨idx, rfl, Option.join_eq_some.mp h⟩

theorem classifyChange_current_none {C : Type} [DecidableEq C] (K : Codec C)
    (previous : Option C) : classifyChange K previous none = .NoComponent := by
  cases previous <;> rfl

theorem classifyChange_ref_none {C : Type} [DecidableEq C] (K : Codec C) (v : C) :
    classifyChange K none (some v) = .FullChange := rfl

theorem classifyChange_eq {C : Type} [DecidableEq C] (K : Codec C) (p v : C) (h : p = v) :
    classifyChange K (some p) (some v) = .NoChange := by
  simp [classifyChange, h]

theorem classifyChange_delta {C : Type} [DecidableEq C] (K : Codec C) (p v : C) (h : ¬p = v)
    (hcd : K.can_delta p v = true) :
    classifyChange K (some p) (some v) = .DeltaChange := by
  simp [classifyChange, h, hcd]

theorem classifyChange_full {C : Type} [DecidableEq C] (K : Codec C) (p v : C) (h : ¬p = v)
    (hcd : K.can_delta p v = false) :
    classifyChange K (some p) (some v) = .FullChange := by
  simp [classifyChange, h, hcd]

theorem readDeltaBody_roundtrip {C : Type} [DecidableEq C] (K : Codec C)
    (hf : ReadFullInverts K) (hd : ReadDeltaInverts K)
    (prev : List (Option C)) (m : Nat → Option Nat) :
    ∀ (ents : List Nat) (cur : List (Option C)), ents.length = cur.length →
      ∀ (rest : Bits),
        readDeltaBody K prev m (ents.zip (deltaChanges K ents cur prev m))
          (deltaPayload K ents cur prev m ++ rest) = some (cur, rest) := by
  have hf1 : ∀ (c : C) (r : Bits), K.read_full (K.write_full c ++ r) = some (c, r) := hf
  have hd1 : ∀ (o c : C) (r : Bits), K.can_delta o c = true →
      K.read_delta o (K.write_delta o c ++ r) = some (c, r) := hd
  intro ents
  induction ents with
  | nil =>
    intro cur hlen rest
    have : cur = [] := List.length_eq_zero.mp (by simpa using hlen.symm)
    subst this
    simp [deltaChanges, deltaPayload, deltaPayloadPieces, readDeltaBody]
  | cons e et ih =>
    intro cur hlen rest
    cases cur with
    | nil => simp at hlen
    | cons c ct =>
      have hlen2 : et.length = ct.length := by simpa using hlen
      simp only [deltaChanges, deltaPayload, deltaPayloadPieces, List.zip_cons_cons,
        List.map_cons, List.flatten_cons, List.append_assoc] at *
      rcases hpv : prevValue prev m e with _ | p
      · cases c with
        | none =>
          simp only [hpv, classifyChange_current_none]
          simp [readDeltaBody, ih ct hlen2 rest]
        | some v =>
          simp only [hpv, classifyChange_ref_none]
          simp [readDeltaBody, hf1, ih ct hlen2 rest]
      · obtain ⟨idx, hm, hp⟩ := prevValue_eq_some prev m e p hpv
        cases c with
        | none =>
          simp only [hpv, classifyChange_current_none]
          simp [readDeltaBody, ih ct hlen2 rest]
        | some v =>
          by_cases hpc : p = v
          · subst hpc
            simp only [hpv, classifyChange_eq K p p rfl]
            simp [readDeltaBody, hm, hp, ih ct hlen2 rest]
          · by_cases hcd : K.can_delta p v = true
            · simp only [hpv, classifyChange_delta K p v hpc hcd]
              simp [readDeltaBody, hm, hp, hd1, hcd, ih ct hlen2 rest]
            · simp only [hpv, classifyChange_full K p v hpc (by simpa using hcd)]
              simp [readDeltaBody, hf1, ih ct hlen2 rest]

theorem read_delta_component_roundtrip {C : Type} [DecidableEq C] (K : Codec C)
    (hf : ReadFullInverts K) (hd : ReadDeltaInverts K)
    (ents : List Nat) (cur prev : List (Option C)) (m : Nat → Option Nat)
    (hlen : ents.length = cur.length) (rest : Bits) :
    read_delta_component K ents prev m (write_delta_component K ents cur prev m ++ rest) =
      some (cur, rest) := by
  rw [read_delta_component, write_delta_component]
  have hclen : (deltaChanges K ents cur prev m).length = ents.length := by
    simp [deltaChanges, List.length_zip, hlen]
  rw [List.append_assoc, ← hclen, readChanges_of_codes]
  simp only [hclen]
  exact readDeltaBody_roundtrip K hf hd prev m ents cur hlen rest

theorem readDeltaComponents_roundtrip {C : Type} [DecidableEq C] :
    ∀ (Ks : List (Codec C)) (curFs prevFs : List (List (Option C))) (ents : List Nat)
      (m : Nat → Option Nat) (rest : Bits),
      (∀ K ∈ Ks, ReadFullInverts K ∧ ReadDeltaInverts K) →
      curFs.length = Ks.length → prevFs.length = Ks.length →
      (∀ f ∈ curFs, f.length = ents.length) →
      readDeltaComponents (Ks.zip prevFs) ents m
        (((Ks.zip (curFs.zip prevFs)).map
          (fun x => write_delta_component x.1 ents x.2.1 x.2.2 m)).flatten ++ rest) =
        some (curFs, rest) := by
  intro Ks
  induction Ks with
  | nil =>
    intro curFs prevFs ents m rest _ hlen _ _
    have : curFs = [] := List.length_eq_zero.mp (by simpa using hlen)
    subst this
    simp [readDeltaComponents]
  | cons K Ks ih =>
    intro curFs prevFs ents m rest hK hclen hplen hfl
    cases curFs with
    | nil => simp at hclen
    | cons f fs =>
      cases prevFs with
      | nil => simp at hplen
      | cons g gs =>
        simp only [List.zip_cons_cons, List.map_cons, List.flatten_cons, List.append_assoc]
        rw [readDeltaComponents]
        rw [read_delta_component_roundtrip K (hK K (by simp)).1 (hK K (by simp)).2 ents f g m
          (by exact (hfl f (by simp)).symm) _]
        simp [ih fs gs ents m rest (fun K2 h2 => hK K2 (by simp [h2]))
          (by simpa using hclen) (by simpa using hplen)
          (fun h hh => hfl h (by simp [hh]))]

/-- Bounded distinct naturals give a bounded list length (the entity-domain
invariant: at most one live allocation per 12-bit id). -/
theorem length_le_of_nodup_bounded (l : List Nat) (n : Nat) (hnd : l.Nodup)
    (hb : ∀ x ∈ l, x < n) : l.length ≤ n := by
  classical
  have hcard : l.toFinset.card = l.length := List.toFinset_card_of_nodup hnd
  have hsub : l.toFinset ⊆ Finset.range n := by
    intro x hx
    rw [List.mem_toFinset] at hx
    exact Finset.mem_range.mpr (hb x hx)
  have := Finset.card_le_card hsub
  rw [hcard, Finset.card_range] at this
  exact this

/-- C1: decoding the bitstream produced by full encoding yields the frame
back: same tick, same entity list element-wise, and every per-field array
equal element-wise (`None` positions included).  Frames respect the data
model: every per-field array is as long as the entity list, entity ids lie
in the 12-bit domain, and ids are distinct (at most one live allocation per
value); every registered codec's `read_full` inverts its `write_full`. -/
theorem claim_full_roundtrip {C : Type} (Ks : List (Codec C)) (F : Frame C)
    (lookup : Nat → Option (Frame C)) (rest : Bits)
    (hK : ∀ K ∈ Ks, ReadFullInverts K)
    (hflen : F.fields.length = Ks.length)
    (hfl : ∀ f ∈ F.fields, f.length = F.entities.length)
    (hnd : F.entities.Nodup)
    (hid : ∀ id ∈ F.entities, id < MAX_LENGTH) :
    read_frame Ks lookup (write_full_frame Ks F ++ rest) = some (F, rest) := by
  have hlen : F.entities.length ≤ MAX_LENGTH :=
    length_le_of_nodup_bounded F.entities MAX_LENGTH hnd hid
  rw [write_full_frame, List.append_assoc, read_frame]
  rw [read_frame_header_roundtrip F.tick none F.entities _ hlen hid]
  simp only
  rw [readFullComponents_roundtrip Ks F.fields F.entities.length rest hK hflen hfl]

/-- C2: if the reference frame `R` is present in the decoder's history
under `R.tick`, and every registered codec's reads invert its writes (full
and delta), then decoding the delta encoding of `F` against `R`
reconstructs `F` exactly — tick, entity list, and every per-field array
element-wise, with `NoChange` entries recovered from `R` through the delta
mapping.  Frames respect the data model as in the full round trip. -/
theorem claim_delta_roundtrip {C : Type} [DecidableEq C] (Ks : List (Codec C))
    (F R : Frame C) (lookup : Nat → Option (Frame C)) (rest : Bits)
    (hlook : lookup R.tick = some R)
    (hK : ∀ K ∈ Ks, ReadFullInverts K ∧ ReadDeltaInverts K)
    (hflen : F.fields.length = Ks.length)
    (hRlen : R.fields.length = Ks.length)
    (hfl : ∀ f ∈ F.fields, f.length = F.entities.length)
    (hnd : F.entities.Nodup)
    (hid : ∀ id ∈ F.entities, id < MAX_LENGTH) :
    read_frame Ks lookup (write_delta_frame Ks F R ++ rest) = some (F, rest) := by
  have hlen : F.entities.length ≤ MAX_LENGTH :=
    length_le_of_nodup_bounded F.entities MAX_LENGTH hnd hid
  rw [write_delta_frame, List.append_assoc, read_frame]
  rw [read_frame_header_roundtrip F.tick (some R.tick) F.entities _ hlen hid]
  simp only [hlook]
  rw [readDeltaComponents_roundtrip Ks F.fields R.fields F.entities
    (generate_delta_mapping R.entities F.entities) rest hK hflen hRlen hfl]

/-- Witness for the full round trip on a concrete frame. -/
theorem claim_full_roundtrip_witness :
    read_frame [boolCodec] (lookupOnly deltaRefEx)
      (write_full_frame [boolCodec] fullFrameEx ++ []) = some (fullFrameEx, []) :=
  claim_full_roundtrip [boolCodec] fullFrameEx (lookupOnly deltaRefEx) []
    (by
      intro K hK
      simp only [List.mem_singleton] at hK
      subst hK
      exact fun c r => rfl)
    rfl
    (by decide)
    (by decide)
    (by decide)

/-- Witness for the delta round trip on a concrete pair of frames covering
`DeltaChange`, `NoChange` and a new-entity `FullChange`. -/
theorem claim_delta_roundtrip_witness :
    read_frame [boolCodec] (lookupOnly deltaRefEx)
      (write_delta_frame [boolCodec] deltaCurEx deltaRefEx ++ []) = some (deltaCurEx, []) :=
  claim_delta_roundtrip [boolCodec] deltaCurEx deltaRefEx (lookupOnly deltaRefEx) []
    rfl
    (by
      intro K hK
      simp only [List.mem_singleton] at hK
      subst hK
      exact ⟨fun c r => rfl, fun o c r _ => rfl⟩)
    rfl
    rfl
    (by decide)
    (by decide)
    (by decide)

/-! ## Change classification claims -/

theorem getElem?_zip_of {α β : Type} :
    ∀ (l1 : List α) (l2 : List β) (i : Nat) (a : α) (b : β),
      l1[i]? = some a → l2[i]? = some b → (l1.zip l2)[i]? = some (a, b) := by
  intro l1
  induction l1 with
  | nil => intro l2 i a b h _; simp at h
  | cons x xs ih =>
    intro l2 i a b h1 h2
    cases l2 with
    | nil => simp at h2
    | cons y ys =>
      cases i with
      | zero =>
        simp only [List.getElem?_cons_zero, Option.some_inj] at h1 h2
        simp [List.zip_cons_cons, h1, h2]
      | succ n =>
        simp only [List.getElem?_cons_succ] at h1 h2
        simpa [List.zip_cons_cons] using ih ys n a b h1 h2

/-- C3: during delta encoding, an entity whose reference value (located via
the delta mapping) equals its current value by value equality is classified
`NoChange`, with no hypothesis on the codec's delta-eligibility predicate:
equality is decided before `can_delta` is ever consulted. -/
theorem claim_change_priority {C : Type} [DecidableEq C] (K : Codec C)
    (entities : List Nat) (cur prev : List (Option C)) (m : Nat → Option Nat)
    (i e : Nat) (x y : C)
    (hent : entities[i]? = some e)
    (hcur : cur[i]? = some (some y))
    (hprev : prevValue prev m e = some x)
    (hxy : x = y) :
    (deltaChanges K entities cur prev m)[i]? = some ComponentChange.NoChange := by
  rw [deltaChanges, List.getElem?_map, getElem?_zip_of entities cur i e (some y) hent hcur]
  simp [hprev, classifyChange_eq K x y hxy]

/-- Witness for the change-code priority on a codec that is delta-eligible
on every pair. -/
theorem claim_change_priority_witness :
    (deltaChanges boolCodec [5] [some true] [some true] mapZero)[0]? =
      some ComponentChange.NoChange :=
  claim_change_priority boolCodec [5] [some true] [some true] mapZero 0 5 true true
    rfl rfl rfl rfl

/-- C4: during delta encoding, an entity absent from the reference frame's
entity list (hence absent from the generated delta mapping) whose current
value is present is classified `FullChange` and its full value is written,
with no hypothesis on the codec's delta capability. -/
theorem claim_new_entity_fullchange {C : Type} [DecidableEq C] (K : Codec C)
    (prev_entities cur_entities : List Nat) (cur prevc : List (Option C))
    (i e : Nat) (y : C)
    (hent : cur_entities[i]? = some e)
    (hcur : cur[i]? = some (some y))
    (habs : e ∉ prev_entities) :
    (deltaChanges K cur_entities cur prevc
        (generate_delta_mapping prev_entities cur_entities))[i]? =
      some ComponentChange.FullChange ∧
    (deltaPayloadPieces K cur_entities cur prevc
        (generate_delta_mapping prev_entities cur_entities))[i]? =
      some (K.write_full y) := by
  have hmap : generate_delta_mapping prev_entities cur_entities e = none := by
    rw [generate_delta_mapping]
    by_cases hc : cur_entities.contains e
    · simp only [hc, if_true]
      rw [List.findIdx?_eq_none_iff]
      intro x hx
      simp only [beq_eq_false_iff_ne, ne_eq]
      intro hxe
      exact habs (hxe ▸ hx)
    · rw [if_neg hc]
  have hpv : prevValue prevc (generate_delta_mapping prev_entities cur_entities) e = none := by
    rw [prevValue, hmap, Option.none_bind]
  constructor
  · rw [deltaChanges, List.getElem?_map,
      getElem?_zip_of cur_entities cur i e (some y) hent hcur]
    simp [hpv, classifyChange_ref_none]
  · rw [deltaPayloadPieces, List.getElem?_map,
      getElem?_zip_of cur_entities cur i e (some y) hent hcur]
    simp [hpv, classifyChange_ref_none]

/-- Witness for the new-entity rule: entity 5 is new relative to reference
entity list `[1]`, and the codec is delta-capable on every pair. -/
theorem claim_new_entity_fullchange_witness :
    (deltaChanges boolCodec [5] [some true] [some false]
        (generate_delta_mapping [1] [5]))[0]? = some ComponentChange.FullChange ∧
    (deltaPayloadPieces boolCodec [5] [some true] [some false]
        (generate_delta_mapping [1] [5]))[0]? = some (boolCodec.write_full true) :=
  claim_new_entity_fullchange boolCodec [1] [5] [some true] [some false] 0 5 true
    rfl rfl (by decide)

/-- C10: during delta decoding, a `NoChange` entity that is present in the
delta mapping but whose reference slot holds no value decodes successfully
and silently yields `none` for that entity; a `DeltaChange` entity in the
same situation makes the whole component decode fail, wherever it occurs
in the entity list. -/
theorem claim_nochange_none_reference {C : Type} (K : Codec C)
    (prev : List (Option C)) (m : Nat → Option Nat) (e idx : Nat)
    (hm : m e = some idx) (hp : prev[idx]? = some none) :
    (∀ (ps : List (Nat × ComponentChange)) (s : Bits),
      readDeltaBody K prev m ((e, ComponentChange.NoChange) :: ps) s =
        (readDeltaBody K prev m ps s).map (fun p => (none :: p.1, p.2))) ∧
    (∀ (pre ps : List (Nat × ComponentChange)) (s : Bits),
      readDeltaBody K prev m (pre ++ (e, ComponentChange.DeltaChange) :: ps) s = none) := by
  constructor
  · intro ps s
    simp [readDeltaBody, hm, hp]
  · intro pre ps s
    induction pre generalizing s with
    | nil => simp [readDeltaBody, hm, hp]
    | cons hd tl ih =>
      obtain ⟨e2, ch2⟩ := hd
      cases ch2 with
      | FullChange =>
        rcases hr : K.read_full s with _ | ⟨c, s1⟩
        · simp [readDeltaBody, hr]
        · simp [readDeltaBody, hr, ih]
      | NoComponent => simp [readDeltaBody, ih]
      | NoChange =>
        rcases hm2 : m e2 with _ | idx2
        · simp [readDeltaBody, hm2]
        · rcases hp2 : prev[idx2]? with _ | comp
          · simp [readDeltaBody, hm2, hp2]
          · simp [readDeltaBody, hm2, hp2, ih]
      | DeltaChange =>
        rcases hm2 : m e2 with _ | idx2
        · simp [readDeltaBody, hm2]
        · rcases hp2 : prev[idx2]? with _ | comp
          · simp [readDeltaBody, hm2, hp2]
          · cases comp with
            | none => simp [readDeltaBody, hm2, hp2]
            | some pv =>
              rcases hr : K.read_delta pv s with _ | ⟨c, s1⟩
              · simp [readDeltaBody, hm2, hp2, hr]
              · simp [readDeltaBody, hm2, hp2, hr, ih]

/-- Witness for the `NoChange`-with-absent-reference rule at a concrete
single-entity decode. -/
theorem claim_nochange_none_reference_witness :
    (readDeltaBody boolCodec [none] mapZero [(0, ComponentChange.NoChange)] [] =
      (readDeltaBody boolCodec [none] mapZero [] []).map (fun p => (none :: p.1, p.2))) ∧
    readDeltaBody boolCodec [none] mapZero
      ([] ++ (0, ComponentChange.DeltaChange) :: []) [] = none :=
  ⟨(claim_nochange_none_reference boolCodec [none] mapZero 0 0 rfl rfl).1 [] [],
   (claim_nochange_none_reference boolCodec [none] mapZero 0 0 rfl rfl).2 [] [] []⟩

/-! ## Sequence ring buffer claims -/

theorem get_insert_self {T : Type} (b : SequenceBuffer T) (s : Nat) (v : T) :
    (b.insert s v).get s = some v := by
  have hidx : s % b.data.length < b.data.length := Nat.mod_lt _ b.hpos
  have hidxs : s % b.data.length < b.sequences.length := by rw [b.hlen]; exact hidx
  simp only [SequenceBuffer.get, SequenceBuffer.insert, SequenceBuffer.index_of,
    List.length_set, List.getD_eq_getElem?_getD]
  rw [List.getElem?_set_self hidxs, List.getElem?_set_self hidx]
  simp

theorem get_insert_other {T : Type} (b : SequenceBuffer T) (s t : Nat) (v : T)
    (hslot : t % b.data.length = s % b.data.length) (hne : t ≠ s) :
    (b.insert s v).get t = none := by
  have hidxs : s % b.data.length < b.sequences.length := by
    rw [b.hlen]; exact Nat.mod_lt _ b.hpos
  simp only [SequenceBuffer.get, SequenceBuffer.insert, SequenceBuffer.index_of,
    List.length_set, List.getD_eq_getElem?_getD, hslot]
  rw [List.getElem?_set_self hidxs]
  simp [Ne.symm hne]

/-- Counterexample to C6: the decode-path insert is unconditional, so an
arriving frame whose tick maps to a slot already holding a strictly
greater tick replaces that slot.  Tick 2 arrives while slot `2 % 4` holds
tick 6; the tick-6 frame is evicted and the tick-2 frame stored. -/
theorem insert_monotonic_counterexample :
    playbackSixEx.buffer.get 6 = some 60 ∧
    (PlaybackState.add_snapshot id playbackSixEx 0 2).buffer.get 6 = none ∧
    (PlaybackState.add_snapshot id playbackSixEx 0 2).buffer.get 2 = some 2 := by
  decide

/-- C6 amended: storing an arriving frame on the decode path always
overwrites the target ring-buffer slot (last-writer-wins): the new frame
becomes retrievable under its tick, and any distinct tick previously
occupying the same slot — including a strictly greater one — is evicted
rather than retained. -/
theorem claim_insert_overwrites {T : Type} (tickOf : T → Nat) (st : PlaybackState T)
    (τ : ℚ) (snap : T) (t2 : Nat)
    (hslot : t2 % st.buffer.data.length = tickOf snap % st.buffer.data.length)
    (hne : t2 ≠ tickOf snap) :
    (PlaybackState.add_snapshot tickOf st τ snap).buffer.get (tickOf snap) = some snap ∧
    (PlaybackState.add_snapshot tickOf st τ snap).buffer.get t2 = none := by
  have hbuf : (PlaybackState.add_snapshot tickOf st τ snap).buffer
      = st.buffer.insert (tickOf snap) snap := by
    rw [PlaybackState.add_snapshot]
    cases hstop : st.stopped <;> simp
  rw [hbuf]
  exact ⟨get_insert_self st.buffer (tickOf snap) snap,
    get_insert_other st.buffer (tickOf snap) t2 snap hslot hne⟩

/-- Witness for the amended last-writer-wins insert. -/
theorem claim_insert_overwrites_witness :
    (PlaybackState.add_snapshot id playbackSixEx 0 2).buffer.get 2 = some 2 ∧
    (PlaybackState.add_snapshot id playbackSixEx 0 2).buffer.get 6 = none :=
  claim_insert_overwrites id playbackSixEx 0 2 6 (by decide) (by decide)

/-- C7: `remove_range` evaluated at concrete inputs, exhibiting both
divergences from exact range eviction.  On a capacity-4 buffer holding
sequences 1 and 3: `remove_range(2..3)` (no slot wraparound) clears the
entire buffer, evicting sequence 1 which is outside the range; and
`remove_range(3..5)` (slot wraparound, end index 1 below start index 3)
removes nothing, leaving sequence 3 — inside the range — stored, because
the inclusive loop `start_idx..=end_idx` is empty when the end is below
the start. -/
theorem remove_range_divergence :
    (bufRemEx.get 1 = some 10 ∧ bufRemEx.get 3 = some 30) ∧
    (bufRemEx.remove_range 2 3).get 1 = none ∧
    (bufRemEx.remove_range 3 5).get 3 = some 30 := by
  decide

/-! ## Iteration claims -/

theorem contains_eq_true_iff {T : Type} (b : SequenceBuffer T) (t : Nat) :
    b.contains t = true ↔ b.sequences.getD (b.index_of t) none = some t := by
  simp [SequenceBuffer.contains]

theorem get_eq_none_of_not_contains {T : Type} (b : SequenceBuffer T) (t : Nat)
    (h : ¬b.contains t = true) : b.get t = none := by
  rw [SequenceBuffer.get, if_neg]
  intro hc
  exact h ((contains_eq_true_iff b t).mpr hc)

theorem get_isSome_of_contains {T : Type} (b : SequenceBuffer T)
    (hWF : SequenceBuffer.WellFormed b) (t : Nat) (hc : b.contains t = true) :
    (b.get t).isSome = true := by
  rw [SequenceBuffer.get, if_pos ((contains_eq_true_iff b t).mp hc)]
  apply hWF
  · exact Nat.mod_lt _ b.hpos
  · rw [(contains_eq_true_iff b t).mp hc]
    rfl

theorem nat_min?_le {l : List Nat} {m x : Nat} (hm : l.min? = some m) (hx : x ∈ l) :
    m ≤ x := by
  have h := (List.min?_eq_some_iff (fun a : Nat => le_refl a) (fun a b => min_choice a b)
    (fun a b c => le_min_iff)).mp hm
  exact h.2 x hx

theorem minTag_le_of_mem {T : Type} (b : SequenceBuffer T) (t : Nat)
    (ht : some t ∈ b.sequences) : SequenceBuffer.minTag b ≤ t := by
  rw [SequenceBuffer.minTag]
  have hmem : t ∈ b.sequences.filterMap id := by
    rw [List.mem_filterMap]
    exact ⟨some t, ht, rfl⟩
  rcases hmin : (b.sequences.filterMap id).min? with _ | m
  · rw [List.min?_eq_none_iff] at hmin
    rw [hmin] at hmem
    simp at hmem
  · simpa using nat_min?_le hmin hmem

theorem iterCollect_eq_filterMap {T : Type} (b : SequenceBuffer T)
    (hWF : SequenceBuffer.WellFormed b) :
    ∀ (fuel cur : Nat),
      SequenceBuffer.iterCollect b fuel cur =
        (List.range fuel).filterMap (fun k => b.get (cur + k)) := by
  intro fuel
  induction fuel with
  | zero => intro cur; simp [SequenceBuffer.iterCollect]
  | succ fuel ih =>
    intro cur
    have hshift : ∀ k : Nat, cur + (k + 1) = cur + 1 + k := by omega
    have hmap : List.filterMap (fun k => b.get (cur + k)) (List.map Nat.succ (List.range fuel))
        = List.filterMap (fun k => b.get (cur + 1 + k)) (List.range fuel) := by
      rw [List.filterMap_map]
      apply List.filterMap_congr
      intro k _
      have : cur + Nat.succ k = cur + 1 + k := by omega
      simp [Function.comp, this]
    rw [SequenceBuffer.iterCollect]
    by_cases hc : b.contains cur = true
    · rcases hv : b.get cur with _ | v
      · exfalso
        have := get_isSome_of_contains b hWF cur hc
        rw [hv] at this
        simp at this
      · rw [if_pos hc]
        show v :: SequenceBuffer.iterCollect b fuel (cur + 1) = _
        rw [ih (cur + 1), List.range_succ_eq_map]
        simp only [List.filterMap_cons, Nat.add_zero, hv, hmap]
    · have hnone : b.get cur = none := get_eq_none_of_not_contains b cur hc
      rw [if_neg hc, ih (cur + 1), List.range_succ_eq_map]
      simp only [List.filterMap_cons, Nat.add_zero, hnone, hmap]

/-- Counterexample to C8: iteration does not visit every live slot.  On a
capacity-2 buffer, tags 0 and 5 are both stored (slot 1 holds tag 5 with
payload 50), yet iterating yields only the payload of tag 0, because the
scan window `[minTag, minTag + capacity) = [0, 2)` never reaches tag 5. -/
theorem iter_skips_live_entry_counterexample :
    bufPairEx.get 5 = some 50 ∧ SequenceBuffer.iterList bufPairEx = [10] := by
  decide

/-- C8 amended: iterating a well-formed buffer yields, exactly once each
and in strictly ascending tag order, the payloads of precisely those live
tags lying in the window `[minTag, minTag + capacity)`; live tags at or
beyond `minTag + capacity` are skipped.  The iteration is finite (it is a
list). -/
theorem claim_iter_window {T : Type} (b : SequenceBuffer T)
    (hWF : SequenceBuffer.WellFormed b) :
    List.Pairwise (· < ·) (SequenceBuffer.liveWindowTags b) ∧
    (∀ t, t ∈ SequenceBuffer.liveWindowTags b ↔
      (b.contains t = true ∧ t < SequenceBuffer.minTag b + b.size)) ∧
    SequenceBuffer.iterList b =
      (SequenceBuffer.liveWindowTags b).filterMap (fun t => b.get t) := by
  refine ⟨?_, ?_, ?_⟩
  · rw [SequenceBuffer.liveWindowTags, List.pairwise_filterMap]
    have : List.Pairwise (· < ·) (List.range b.size) := List.pairwise_lt_range b.size
    apply this.imp_of_mem
    intro k k2 _ _ hk t1 ht1 t2 ht2
    by_cases h1 : b.contains (SequenceBuffer.minTag b + k) = true
    · by_cases h2 : b.contains (SequenceBuffer.minTag b + k2) = true
      · rw [if_pos h1] at ht1
        rw [if_pos h2] at ht2
        simp only [Option.mem_def, Option.some_inj] at ht1 ht2
        omega
      · rw [if_neg h2] at ht2
        simp at ht2
    · rw [if_neg h1] at ht1
      simp at ht1
  · intro t
    constructor
    · intro ht
      rw [SequenceBuffer.liveWindowTags, List.mem_filterMap] at ht
      obtain ⟨k, hk, hf⟩ := ht
      rw [List.mem_range] at hk
      by_cases hc : b.contains (SequenceBuffer.minTag b + k) = true
      · rw [if_pos hc] at hf
        simp only [Option.some_inj] at hf
        subst hf
        exact ⟨hc, by omega⟩
      · rw [if_neg hc] at hf
        simp at hf
    · rintro ⟨hc, hlt⟩
      have hmem : some t ∈ b.sequences := by
        have h1 := (contains_eq_true_iff b t).mp hc
        have hidx : b.index_of t < b.sequences.length := by
          rw [b.hlen]
          exact Nat.mod_lt _ b.hpos
        rw [List.getD_eq_getElem?_getD, List.getElem?_eq_getElem hidx] at h1
        simp only [Option.getD_some] at h1
        rw [← h1]
        exact List.getElem_mem hidx
      have hle : SequenceBuffer.minTag b ≤ t := minTag_le_of_mem b t hmem
      rw [SequenceBuffer.liveWindowTags, List.mem_filterMap]
      refine ⟨t - SequenceBuffer.minTag b, ?_, ?_⟩
      · rw [List.mem_range]
        omega
      · have heq : SequenceBuffer.minTag b + (t - SequenceBuffer.minTag b) = t := by omega
        rw [heq, if_pos hc]
  · rw [SequenceBuffer.iterList, iterCollect_eq_filterMap b hWF b.size (SequenceBuffer.minTag b),
      SequenceBuffer.liveWindowTags, List.filterMap_filterMap]
    apply List.filterMap_congr
    intro k _
    by_cases hc : b.contains (SequenceBuffer.minTag b + k) = true
    · rw [if_pos hc]
      rfl
    · rw [if_neg hc]
      rw [get_eq_none_of_not_contains b _ hc]
      rfl

/-- Witness for the amended iteration claim on the concrete capacity-2
buffer with tags 0 and 5. -/
theorem claim_iter_window_witness :
    List.Pairwise (· < ·) (SequenceBuffer.liveWindowTags bufPairEx) ∧
    (∀ t, t ∈ SequenceBuffer.liveWindowTags bufPairEx ↔
      (bufPairEx.contains t = true ∧
        t < SequenceBuffer.minTag bufPairEx + bufPairEx.size)) ∧
    SequenceBuffer.iterList bufPairEx =
      (SequenceBuffer.liveWindowTags bufPairEx).filterMap (fun t => bufPairEx.get t) :=
  claim_iter_window bufPairEx (by decide)

/-! ## Identity-registry exhaustion claim -/

theorem generate_registryAfter (k : Nat) (hk : k < MAX_LENGTH) :
    (registryAfter k).generate = GenResult.ok k (registryAfter (k + 1)) := by
  have hrep : (List.replicate k true ++ List.replicate (MAX_LENGTH - k) false)[k]?
      = some false := by
    rw [List.getElem?_append_right (by simp)]
    simp only [List.length_replicate, Nat.sub_self, List.getElem?_replicate]
    rw [if_pos (by omega)]
  have hset : (List.replicate k true ++ List.replicate (MAX_LENGTH - k) false).set k true
      = List.replicate (k + 1) true ++ List.replicate (MAX_LENGTH - (k + 1)) false := by
    rw [List.set_append, if_neg (by simp)]
    simp only [List.length_replicate, Nat.sub_self]
    have hsub : MAX_LENGTH - k = (MAX_LENGTH - (k + 1)) + 1 := by
      simp only [MAX_LENGTH, ID_BITS] at hk ⊢
      omega
    rw [hsub, List.replicate_succ, List.set_cons_zero, List.replicate_succ']
    simp
  rw [NetworkEntities.generate, registryAfter]
  rw [generateAux]
  simp only [hrep, hset]
  rw [registryAfter]

/-- C5: the registry claim splits against the code.  First `MAX_LENGTH`
allocations from a fresh registry do return the distinct ids
`0, 1, …, MAX_LENGTH - 1`; but the `(MAX_LENGTH + 1)`-th call does not
return the explicit exhausted outcome — it indexes the used-bitmap at the
out-of-range cursor `MAX_LENGTH` and panics, because the cursor-wrap check
runs only after the bitmap access. -/
theorem claim_generate_exhaustion_panics :
    registryAfter 0 = NetworkEntities.default ∧
    (∀ k, k < MAX_LENGTH →
      (registryAfter k).generate = GenResult.ok k (registryAfter (k + 1))) ∧
    (registryAfter MAX_LENGTH).generate = GenResult.panicked := by
  refine ⟨?_, fun k hk => generate_registryAfter k hk, ?_⟩
  · rw [registryAfter, NetworkEntities.default]
    simp
  · rw [NetworkEntities.generate, registryAfter, generateAux]
    have hnone : (List.replicate MAX_LENGTH true ++
        List.replicate (MAX_LENGTH - MAX_LENGTH) false)[MAX_LENGTH]? = none := by
      simp
    rw [hnone]

/-- Witness for the registry theorem at a concrete allocation step. -/
theorem claim_generate_exhaustion_panics_witness :
    (registryAfter 5).generate = GenResult.ok 5 (registryAfter 6) :=
  claim_generate_exhaustion_panics.2.1 5 (by norm_num [MAX_LENGTH, ID_BITS])

/-! ## Playback-clock anchoring claim -/

/-- C9: receiving the first frame in the stopped (Idle) state at wall time
`τ` anchors the playback clock to that frame's tick and arrival time: the
delayed playback position `t - D` starts at the origin `τ - D` on arrival
and the frame's tick is anchored at stream time `τ`, so the computed
target tick is `tick + ⌊((t - D) - τ) · rate⌋`.  The clock stays
non-interpolating (Seeking): updates before `τ + D` change nothing, and
afterwards interpolation begins exactly when a frame at the computed
target tick is found in the buffer. -/
theorem claim_playback_anchor {T : Type} (tickOf : T → Nat) (st : PlaybackState T)
    (τ D : ℚ) (snap : T)
    (hstop : st.stopped = true) (hintp : st.interpolating = false)
    (hD : st.playout_delay = D) :
    ((PlaybackState.add_snapshot tickOf st τ snap).start_tick = tickOf snap ∧
     (PlaybackState.add_snapshot tickOf st τ snap).start_time = τ ∧
     (PlaybackState.add_snapshot tickOf st τ snap).stopped = false ∧
     (PlaybackState.add_snapshot tickOf st τ snap).interpolating = false) ∧
    (∀ t : ℚ, t < τ + D →
      PlaybackState.update (PlaybackState.add_snapshot tickOf st τ snap) t =
        (PlaybackState.add_snapshot tickOf st τ snap, none, none)) ∧
    (∀ t : ℚ, τ + D ≤ t →
      ((PlaybackState.add_snapshot tickOf st τ snap).buffer.get
          (⌊((t - D) - τ) * st.tick_rate⌋₊ + tickOf snap) = none →
        (PlaybackState.update (PlaybackState.add_snapshot tickOf st τ snap) t).1.interpolating
          = false) ∧
      (∀ F, (PlaybackState.add_snapshot tickOf st τ snap).buffer.get
          (⌊((t - D) - τ) * st.tick_rate⌋₊ + tickOf snap) = some F →
        (PlaybackState.update (PlaybackState.add_snapshot tickOf st τ snap) t).1.interpolating
          = true)) := by
  have hs1 : PlaybackState.add_snapshot tickOf st τ snap =
      { st with
        start_tick := tickOf snap
        start_time := τ
        stopped := false
        buffer := st.buffer.insert (tickOf snap) snap } := by
    rw [PlaybackState.add_snapshot, hstop]
    rfl
  have harith : ∀ t : ℚ, (t - D) - τ = t - (τ + D) := by intro t; ring
  refine ⟨by rw [hs1]; exact ⟨rfl, rfl, rfl, hintp⟩, ?_, ?_⟩
  · intro t ht
    rw [hs1, PlaybackState.update]
    simp only
    rw [if_neg (by simp), if_pos (by simpa [hD] using ht)]
  · intro t ht
    have hnotlt : ¬t < τ + D := not_lt.mpr ht
    constructor
    · intro hbuf
      rw [hs1] at hbuf ⊢
      rw [harith] at hbuf
      rw [PlaybackState.update]
      simp only
      rw [if_neg (by simp), if_neg (by simpa [hD] using hnotlt)]
      simp only [hintp, hD, Bool.false_eq_true, if_false, hbuf]
    · intro F hbuf
      rw [hs1] at hbuf ⊢
      rw [harith] at hbuf
      rw [PlaybackState.update]
      simp only
      rw [if_neg (by simp), if_neg (by simpa [hD] using hnotlt)]
      simp only [hintp, hD, Bool.false_eq_true, if_false, hbuf]
      rcases hfb : PlaybackState.findBracket (st.buffer.insert (tickOf snap) snap)
          (⌊(t - (τ + D)) * st.tick_rate⌋₊ + tickOf snap) ⌊D * st.tick_rate⌋₊ with _ | ⟨i, s⟩ <;>
        simp only [hfb] <;> split <;> (try split) <;> (try split) <;> (try split) <;> simp

/-- Witness for the playback anchoring: the first frame (tick 100) arrives
at wall time 2 with delay 1/10; an update at time 2 (before the delay has
elapsed) changes nothing, and at time 21/10 the computed target tick 100
is buffered, so interpolation starts. -/
theorem claim_playback_anchor_witness :
    (PlaybackState.update (PlaybackState.add_snapshot id playbackEx 2 100) 2 =
      (PlaybackState.add_snapshot id playbackEx 2 100, none, none)) ∧
    (PlaybackState.update (PlaybackState.add_snapshot id playbackEx 2 100)
      (21 / 10)).1.interpolating = true :=
  ⟨(claim_playback_anchor id playbackEx 2 (1 / 10) 100 rfl rfl rfl).2.1 2 (by norm_num),
   ((claim_playback_anchor id playbackEx 2 (1 / 10) 100 rfl rfl rfl).2.2 (21 / 10)
      (by norm_num)).2 100
      (by
        have h0 : ⌊((21 / 10 : ℚ) - 1 / 10 - 2) * playbackEx.tick_rate⌋₊ = 0 := by
          have hz : ((21 / 10 : ℚ) - 1 / 10 - 2) * playbackEx.tick_rate = 0 := by
            norm_num [playbackEx, PlaybackState.new]
          rw [hz, Nat.floor_zero]
        rw [h0]
        decide)⟩

end BevyReplicate
